import Mathlib

/- Verification of src/commbase_http_server.py.

Python strings are modelled as lists of Unicode code points (Lean `Char`).
The resolver side embeds `SingleDirectoryHTTPRequestHandler.translate_path`
(src lines 84-88), which is `os.path.join(self.root_dir, unquote(path).lstrip("/"))`;
its collaborators `urllib.parse.unquote` (with its defaults encoding='utf-8',
errors='replace') and `posixpath.join` are embedded from their documented
CPython behaviour. The bootstrap side embeds the configuration phase of
`main` (src lines 109-144): the usage exit, the flag-scanning loop, and the
TLS branch condition. Recursions are written with an explicit fuel argument
equal to the input length so that every definition evaluates by kernel
reduction. -/

/-- ASCII test used by urllib.parse.unquote to cut the input into ASCII runs
(its `_asciire` regular expression matches runs of characters in 0x00-0x7F). -/
def isAsciiChar (c : Char) : Bool := decide (c.toNat ≤ 0x7f)

/-- Value of one hexadecimal digit, either case, as accepted by the
`_hextobyte` table of urllib.parse. -/
def hexDigitVal (c : Char) : Option Nat :=
  if '0' ≤ c ∧ c ≤ '9' then some (c.toNat - '0'.toNat)
  else if 'a' ≤ c ∧ c ≤ 'f' then some (c.toNat - 'a'.toNat + 10)
  else if 'A' ≤ c ∧ c ≤ 'F' then some (c.toNat - 'A'.toNat + 10)
  else none

/-- urllib.parse.unquote_to_bytes on an ASCII run: a '%' followed by two hex
digits becomes that byte; a '%' not followed by two hex digits is kept
literally; every other character contributes its own code as a byte.
Fuel-driven; every step consumes at least one character. -/
def pctBytesF : Nat → List Char → List Nat
  | 0, _ => []
  | _, [] => []
  | fuel + 1, c :: rest =>
    if c = '%' then
      match rest with
      | a :: b :: rest2 =>
        match hexDigitVal a, hexDigitVal b with
        | some ha, some hb => (16 * ha + hb) :: pctBytesF fuel rest2
        | _, _ => 0x25 :: pctBytesF fuel rest
      | _ => 0x25 :: pctBytesF fuel rest
    else c.toNat :: pctBytesF fuel rest

/-- urllib.parse.unquote_to_bytes on an ASCII run. -/
def pctBytes (cs : List Char) : List Nat := pctBytesF cs.length cs

/-- UTF-8 continuation byte test (0x80-0xBF). -/
def utf8Cont (b : Nat) : Bool := decide (0x80 ≤ b ∧ b ≤ 0xBF)

/-- Admissible second byte after a multi-byte lead (Unicode Table 3-7), as
enforced by CPython's UTF-8 decoder. -/
def utf8Second (lead b : Nat) : Bool :=
  if lead = 0xE0 then decide (0xA0 ≤ b ∧ b ≤ 0xBF)
  else if lead = 0xED then decide (0x80 ≤ b ∧ b ≤ 0x9F)
  else if lead = 0xF0 then decide (0x90 ≤ b ∧ b ≤ 0xBF)
  else if lead = 0xF4 then decide (0x80 ≤ b ∧ b ≤ 0x8F)
  else decide (0x80 ≤ b ∧ b ≤ 0xBF)

/-- U+FFFD REPLACEMENT CHARACTER, emitted by bytes.decode('utf-8', 'replace'). -/
def replChar : Char := '�'

/-- bytes.decode('utf-8', errors='replace') as CPython implements it: each
maximal subpart of an ill-formed subsequence is replaced by one U+FFFD
(Unicode recommended practice, followed by CPython since 3.3). Fuel-driven;
every step consumes at least one byte, so fuel = length suffices. -/
def utf8DecodeReplF : Nat → List Nat → List Char
  | 0, _ => []
  | _, [] => []
  | fuel + 1, b :: rest =>
    if b < 0x80 then Char.ofNat b :: utf8DecodeReplF fuel rest
    else if 0xC2 ≤ b ∧ b ≤ 0xDF then
      match rest with
      | b1 :: rest1 =>
        if utf8Cont b1 then
          Char.ofNat ((b - 0xC0) * 0x40 + (b1 - 0x80)) :: utf8DecodeReplF fuel rest1
        else replChar :: utf8DecodeReplF fuel rest
      | [] => [replChar]
    else if 0xE0 ≤ b ∧ b ≤ 0xEF then
      match rest with
      | b1 :: rest1 =>
        if utf8Second b b1 then
          match rest1 with
          | b2 :: rest2 =>
            if utf8Cont b2 then
              Char.ofNat ((b - 0xE0) * 0x1000 + (b1 - 0x80) * 0x40 + (b2 - 0x80)) ::
                utf8DecodeReplF fuel rest2
            else replChar :: utf8DecodeReplF fuel rest1
          | [] => [replChar]
        else replChar :: utf8DecodeReplF fuel rest
      | [] => [replChar]
    else if 0xF0 ≤ b ∧ b ≤ 0xF4 then
      match rest with
      | b1 :: rest1 =>
        if utf8Second b b1 then
          match rest1 with
          | b2 :: rest2 =>
            if utf8Cont b2 then
              match rest2 with
              | b3 :: rest3 =>
                if utf8Cont b3 then
                  Char.ofNat ((b - 0xF0) * 0x40000 + (b1 - 0x80) * 0x1000 +
                    (b2 - 0x80) * 0x40 + (b3 - 0x80)) :: utf8DecodeReplF fuel rest3
                else replChar :: utf8DecodeReplF fuel rest2
              | [] => [replChar]
            else replChar :: utf8DecodeReplF fuel rest1
          | [] => [replChar]
        else replChar :: utf8DecodeReplF fuel rest
      | [] => [replChar]
    else replChar :: utf8DecodeReplF fuel rest

/-- bytes.decode('utf-8', errors='replace'). -/
def utf8DecodeRepl (bs : List Nat) : List Char := utf8DecodeReplF bs.length bs

/-- urllib.parse.unquote: non-ASCII characters pass through unchanged; each
maximal ASCII run is percent-decoded to bytes and those bytes are decoded as
UTF-8 with errors='replace'. (CPython's `if '%' not in string: return string`
fast path returns the same value, since without '%' this process is the
identity.) Fuel-driven; fuel = length suffices. -/
def unquoteF : Nat → List Char → List Char
  | 0, _ => []
  | _, [] => []
  | fuel + 1, c :: rest =>
    if isAsciiChar c then
      utf8DecodeRepl (pctBytes ((c :: rest).takeWhile isAsciiChar)) ++
        unquoteF fuel ((c :: rest).dropWhile isAsciiChar)
    else c :: unquoteF fuel rest

/-- urllib.parse.unquote with its default arguments, as called at src line 85. -/
def unquote (cs : List Char) : List Char := unquoteF cs.length cs

/-- str.lstrip("/"): remove every leading '/' character (src line 88). -/
def lstripSlashes (cs : List Char) : List Char := cs.dropWhile (fun c => c == '/')

/-- Whether a list of characters begins with the given character. -/
def startsWithChar (c : Char) : List Char → Bool
  | [] => false
  | a :: _ => a == c

/-- posixpath.join for exactly two components, as in os.path.join(root, tail)
at src line 88: an absolute tail replaces the head; otherwise the tail is
appended, inserting '/' unless the head is empty or already ends in '/'. -/
def posixJoin (a b : List Char) : List Char :=
  if startsWithChar '/' b then b
  else if a = [] ∨ a.getLast? = some '/' then a ++ b
  else a ++ '/' :: b

/-- SingleDirectoryHTTPRequestHandler.translate_path (src lines 84-88):
path = unquote(path); return os.path.join(self.root_dir, path.lstrip("/")). -/
def translate_path (root_dir path : List Char) : List Char :=
  posixJoin root_dir (lstripSlashes (unquote path))

/-- The configuration main builds before creating the server (src lines
109-131): base_url defaults to '127.0.0.1', port to 5050, cert_file and
key_file to None. root_dir records the raw positional argument; the source
applies os.path.abspath to it (src line 118), which depends on the process
working directory and is not inspected by any claim. -/
structure ServerConfig where
  root_dir : String
  base_url : String := "127.0.0.1"
  port : Int := 5050
  cert_file : Option String := none
  key_file : Option String := none
deriving DecidableEq

/-- The ways main can stop before reaching serve_forever: sys.exit(1) after
printing the usage message (src lines 120-121), an uncaught ValueError from
int() on a non-numeric --port value (src line 127, recorded with the
offending literal), and IndexError from an out-of-range list access. -/
inductive PyExit where
  | sysExit (code : Nat) (msg : String)
  | valueError (literal : String)
  | indexError
deriving DecidableEq

/-- Python list indexing: args[i] raises IndexError when i is out of range. -/
def pyIndex (l : List String) (i : Nat) : Except PyExit String :=
  if h : i < l.length then .ok l[i] else .error .indexError

/-- ASCII whitespace stripped by Python's int() before parsing (int() also
strips other Unicode whitespace, which no claim exercises). -/
def isPySpace (c : Char) : Bool :=
  c == ' ' || c == '\t' || c == '\n' || c == '\r' || c == '\x0b' || c == '\x0c'

/-- Decimal digit test. -/
def isDigitChar (c : Char) : Bool := decide ('0' ≤ c ∧ c ≤ '9')

/-- Remaining digits of a Python int literal: single underscores are allowed
between digits (int('5_0') == 50; int('5__0') and int('5_') raise). -/
def pyDigitsVal : Nat → List Char → Option Nat
  | acc, [] => some acc
  | acc, '_' :: c :: rest =>
    if isDigitChar c then pyDigitsVal (acc * 10 + (c.toNat - '0'.toNat)) rest else none
  | _, ['_'] => none
  | acc, c :: rest =>
    if isDigitChar c then pyDigitsVal (acc * 10 + (c.toNat - '0'.toNat)) rest else none

/-- Digit part of a Python int literal: at least one digit required. -/
def pyIntDigits : List Char → Option Nat
  | [] => none
  | c :: rest =>
    if isDigitChar c then pyDigitsVal (c.toNat - '0'.toNat) rest else none

/-- Python int(str) as called at src line 127: strip surrounding whitespace,
an optional sign, then a nonempty digit string; None models ValueError. -/
def pyInt (s : String) : Option Int :=
  match ((s.data.dropWhile isPySpace).reverse.dropWhile isPySpace).reverse with
  | '+' :: rest => (pyIntDigits rest).map (fun n => (n : Int))
  | '-' :: rest => (pyIntDigits rest).map (fun n => -(n : Int))
  | rest => (pyIntDigits rest).map (fun n => (n : Int))

/-- One iteration of main's flag loop (src lines 123-131) at index i: each
branch tests the flag name together with `i + 1 < len(args)` before reading
the value at i + 1; a non-numeric --port value raises ValueError; if no
branch matches, the configuration is unchanged. -/
def flagStep (args : List String) (i : Nat) (cfg : ServerConfig) : Except PyExit ServerConfig :=
  if args.getD i "" = "--host" ∧ i + 1 < args.length then
    (pyIndex args (i + 1)).map (fun v => { cfg with base_url := v })
  else if args.getD i "" = "--port" ∧ i + 1 < args.length then
    (pyIndex args (i + 1)).bind (fun v =>
      match pyInt v with
      | some n => .ok { cfg with port := n }
      | none => .error (.valueError v))
  else if args.getD i "" = "--cert" ∧ i + 1 < args.length then
    (pyIndex args (i + 1)).map (fun v => { cfg with cert_file := some v })
  else if args.getD i "" = "--key" ∧ i + 1 < args.length then
    (pyIndex args (i + 1)).map (fun v => { cfg with key_file := some v })
  else .ok cfg

/-- main's `for i in range(1, len(args))` loop (src lines 123-131), started
at index i; the index always advances by one, so a flag's value is itself
examined as a potential flag on the next iteration, as in the source.
Fuel-driven; fuel = len(args) - i suffices. -/
def parseFlagsF : Nat → List String → Nat → ServerConfig → Except PyExit ServerConfig
  | 0, _, _, cfg => .ok cfg
  | fuel + 1, args, i, cfg =>
    if i < args.length then
      match flagStep args i cfg with
      | .ok cfg2 => parseFlagsF fuel args (i + 1) cfg2
      | .error e => .error e
    else .ok cfg

/-- The usage line printed at src line 120 before sys.exit(1). -/
def usageMessage : String :=
  "Usage: python commbase_http_server.py /path/to/dir --host 127.0.0.1 --port 5050 [--cert /path/to/cert.pem --key /path/to/key.pem]"

/-- The configuration phase of main (src lines 109-131) applied to
args = sys.argv[1:]: with no arguments, print the usage message and
sys.exit(1); otherwise take args[0] as the directory and scan the rest for
flags. An error value means the process stopped before a server was built. -/
def parseMain (args : List String) : Except PyExit ServerConfig :=
  match args with
  | [] => .error (.sysExit 1 usageMessage)
  | a0 :: rest => parseFlagsF (rest.length + 1) (a0 :: rest) 1 { root_dir := a0 }

/-- Python truthiness of an optional string: None and '' are both falsy. -/
def pyTruthyStr : Option String → Bool
  | none => false
  | some s => !(s == "")

/-- The TLS branch condition `if cert_file and key_file:` (src lines 139 and
148): the socket is wrapped in an SSL context exactly when this is true. -/
def servesTLS (cfg : ServerConfig) : Bool :=
  pyTruthyStr cfg.cert_file && pyTruthyStr cfg.key_file

/-- Whether a run of the configuration phase ended in an IndexError. -/
def isIndexError : Except PyExit ServerConfig → Bool
  | .error .indexError => true
  | _ => false

theorem dropWhile_length_le {α : Type} (p : α → Bool) : ∀ l : List α, (l.dropWhile p).length ≤ l.length
  | [] => Nat.le_refl 0
  | a :: l => by
    rw [List.dropWhile_cons]
    by_cases h : p a = true
    · rw [if_pos h]
      exact Nat.le_trans (dropWhile_length_le p l) (Nat.le_succ _)
    · rw [if_neg h]

theorem mem_of_mem_takeWhile {α : Type} {p : α → Bool} {l : List α} {x : α}
    (h : x ∈ l.takeWhile p) : x ∈ l := by
  have h2 := List.takeWhile_append_dropWhile p l
  rw [← h2]
  exact List.mem_append_left _ h

theorem mem_of_mem_dropWhile {α : Type} {p : α → Bool} {l : List α} {x : α}
    (h : x ∈ l.dropWhile p) : x ∈ l := by
  have h2 := List.takeWhile_append_dropWhile p l
  rw [← h2]
  exact List.mem_append_right _ h

theorem pctBytesF_no_pct : ∀ (fuel : Nat) (cs : List Char), cs.length ≤ fuel → '%' ∉ cs →
    pctBytesF fuel cs = cs.map Char.toNat := by
  intro fuel
  induction fuel with
  | zero =>
    intro cs hl _
    rw [List.length_eq_zero.mp (Nat.le_zero.mp hl)]
    rfl
  | succ f ih =>
    intro cs hl hp
    cases cs with
    | nil => rfl
    | cons c rest =>
      rw [List.mem_cons] at hp
      push_neg at hp
      have hc : ¬ c = '%' := fun e => hp.1 e.symm
      simp only [pctBytesF, if_neg hc, List.map_cons]
      rw [ih rest (Nat.le_of_succ_le_succ hl) hp.2]

theorem utf8DecodeReplF_ascii : ∀ (fuel : Nat) (bs : List Nat), bs.length ≤ fuel →
    (∀ b ∈ bs, b < 0x80) → utf8DecodeReplF fuel bs = bs.map Char.ofNat := by
  intro fuel
  induction fuel with
  | zero =>
    intro bs hl _
    rw [List.length_eq_zero.mp (Nat.le_zero.mp hl)]
    rfl
  | succ f ih =>
    intro bs hl hb
    cases bs with
    | nil => rfl
    | cons b rest =>
      have hb0 : b < 0x80 := hb b (List.mem_cons_self b rest)
      simp only [utf8DecodeReplF, if_pos hb0, List.map_cons]
      rw [ih rest (Nat.le_of_succ_le_succ hl) (fun x hx => hb x (List.mem_cons_of_mem b hx))]

theorem map_ofNat_toNat : ∀ cs : List Char, (cs.map Char.toNat).map Char.ofNat = cs := by
  intro cs
  induction cs with
  | nil => rfl
  | cons c rest ih => simp only [List.map_cons, Char.ofNat_toNat, ih]

theorem unquoteF_no_pct : ∀ (fuel : Nat) (cs : List Char), cs.length ≤ fuel → '%' ∉ cs →
    unquoteF fuel cs = cs := by
  intro fuel
  induction fuel with
  | zero =>
    intro cs hl _
    rw [List.length_eq_zero.mp (Nat.le_zero.mp hl)]
    rfl
  | succ f ih =>
    intro cs hl hp
    cases cs with
    | nil => rfl
    | cons c rest =>
      by_cases hA : isAsciiChar c = true
      · have hrun : '%' ∉ (c :: rest).takeWhile isAsciiChar :=
          fun h => hp (mem_of_mem_takeWhile h)
        have hbytes : pctBytes ((c :: rest).takeWhile isAsciiChar) =
            ((c :: rest).takeWhile isAsciiChar).map Char.toNat :=
          pctBytesF_no_pct _ _ (Nat.le_refl _) hrun
        have hlt : ∀ x ∈ ((c :: rest).takeWhile isAsciiChar).map Char.toNat, x < 0x80 := by
          intro x hx
          obtain ⟨c2, hc2, rfl⟩ := List.mem_map.mp hx
          have hA2 := List.mem_takeWhile_imp hc2
          have h7f : c2.toNat ≤ 0x7f := by simpa [isAsciiChar] using hA2
          omega
        have hdec : utf8DecodeRepl (pctBytes ((c :: rest).takeWhile isAsciiChar)) =
            (c :: rest).takeWhile isAsciiChar := by
          rw [hbytes]
          unfold utf8DecodeRepl
          rw [utf8DecodeReplF_ascii _ _ (Nat.le_refl _) hlt, map_ofNat_toNat]
        have hdrop : (c :: rest).dropWhile isAsciiChar = rest.dropWhile isAsciiChar :=
          List.dropWhile_cons_of_pos hA
        have hdl : (rest.dropWhile isAsciiChar).length ≤ f := by
          have h5 := dropWhile_length_le isAsciiChar rest
          have hlen : rest.length + 1 ≤ f + 1 := hl
          omega
        have hdp : '%' ∉ rest.dropWhile isAsciiChar := by
          rw [← hdrop]
          exact fun h => hp (mem_of_mem_dropWhile h)
        simp only [unquoteF, if_pos hA]
        rw [hdec, hdrop, ih _ hdl hdp, ← hdrop]
        exact List.takeWhile_append_dropWhile isAsciiChar (c :: rest)
      · simp only [unquoteF, if_neg hA]
        rw [List.mem_cons] at hp
        push_neg at hp
        rw [ih rest (Nat.le_of_succ_le_succ hl) hp.2]

theorem unquote_no_pct (cs : List Char) (h : '%' ∉ cs) : unquote cs = cs :=
  unquoteF_no_pct cs.length cs (Nat.le_refl _) h

theorem lstripSlashes_no_slash_head : ∀ cs : List Char,
    startsWithChar '/' (lstripSlashes cs) = false := by
  intro cs
  induction cs with
  | nil => rfl
  | cons c rest ih =>
    by_cases h : (c == '/') = true
    · have h2 : lstripSlashes (c :: rest) = lstripSlashes rest := List.dropWhile_cons_of_pos h
      rw [h2]
      exact ih
    · have h2 : lstripSlashes (c :: rest) = c :: rest := List.dropWhile_cons_of_neg h
      rw [h2]
      simpa [startsWithChar] using h

theorem posixJoin_suffix (a b : List Char) : b <:+ posixJoin a b := by
  unfold posixJoin
  by_cases h1 : startsWithChar '/' b = true
  · rw [if_pos h1]
  · rw [if_neg h1]
    by_cases h2 : a = [] ∨ a.getLast? = some '/'
    · rw [if_pos h2]
      exact List.suffix_append a b
    · rw [if_neg h2]
      have h3 : a ++ '/' :: b = (a ++ ['/']) ++ b := by simp
      rw [h3]
      exact List.suffix_append _ b

theorem posixJoin_keeps_root (a b : List Char) (h : startsWithChar '/' b = false) :
    a <+: posixJoin a b := by
  unfold posixJoin
  rw [if_neg (by simp [h])]
  by_cases h2 : a = [] ∨ a.getLast? = some '/'
  · rw [if_pos h2]
    exact List.prefix_append a b
  · rw [if_neg h2]
    exact List.prefix_append a ('/' :: b)

theorem dotdot_lstrip : ∀ cs : List Char, ['.', '.'] <:+: cs →
    ['.', '.'] <:+: lstripSlashes cs := by
  intro cs
  induction cs with
  | nil => exact fun h => h
  | cons c rest ih =>
    intro h
    by_cases hc : (c == '/') = true
    · have hc2 : c = '/' := by simpa using hc
      have h2 : ['.', '.'] <:+: rest := by
        obtain ⟨s, t, hst⟩ := h
        cases s with
        | nil =>
          simp only [List.nil_append, List.cons_append] at hst
          injection hst with hhead _
          rw [hc2] at hhead
          exact absurd hhead (by decide)
        | cons x s2 =>
          simp only [List.cons_append] at hst
          injection hst with _ htail
          exact ⟨s2, t, htail⟩
      have hl : lstripSlashes (c :: rest) = lstripSlashes rest := List.dropWhile_cons_of_pos hc
      rw [hl]
      exact ih h2
    · have hl : lstripSlashes (c :: rest) = c :: rest := List.dropWhile_cons_of_neg hc
      rw [hl]
      exact h

theorem utf8DecodeReplF_nil : ∀ fuel, utf8DecodeReplF fuel [] = [] := by
  intro fuel
  cases fuel with
  | zero => rfl
  | succ f => rfl

theorem pctBytesF_nil : ∀ fuel, pctBytesF fuel [] = [] := by
  intro fuel
  cases fuel with
  | zero => rfl
  | succ f => rfl

theorem utf8Cont_ge {b : Nat} (h : utf8Cont b = true) : 0x80 ≤ b := by
  have h2 : 0x80 ≤ b ∧ b ≤ 0xBF := by simpa [utf8Cont] using h
  exact h2.1

theorem utf8Second_ge {l b : Nat} (h : utf8Second l b = true) : 0x80 ≤ b := by
  unfold utf8Second at h
  split_ifs at h <;> (have h2 := of_decide_eq_true h; omega)

theorem mem_take_append {α : Type} : ∀ (u : List α) (a : α) (w : List α) (k : Nat),
    u.length < k → a ∈ (u ++ a :: w).take k
  | [], a, w, k, h => by
    cases k with
    | zero => simp at h
    | succ k2 =>
      rw [List.nil_append, List.take_succ_cons]
      exact List.mem_cons_self a _
  | b :: u2, a, w, k, h => by
    cases k with
    | zero => simp at h
    | succ k2 =>
      rw [List.cons_append, List.take_succ_cons]
      refine List.mem_cons_of_mem b ?_
      exact mem_take_append u2 a w k2 (by simp at h; omega)

theorem dropOverAppend {α : Type} : ∀ (u w : List α) (k : Nat), k ≤ u.length →
    (u ++ w).drop k = u.drop k ++ w
  | u, w, 0, _ => by simp
  | [], w, k + 1, h => by simp at h
  | a :: u2, w, k + 1, h => by
    rw [List.cons_append, List.drop_succ_cons, List.drop_succ_cons]
    exact dropOverAppend u2 w k (by simp at h; omega)

/-- One decoding step of the UTF-8 decoder: starting at any byte it consumes
that byte plus k further bytes that are all ≥ 0x80 (continuation-range bytes),
emits some output, and proceeds; hence a byte < 0x80 such as 0x2E ('.') is
never consumed by a step that started before it. -/
theorem utf8DecodeReplF_step (fuel : Nat) (b : Nat) (rest : List Nat) :
    ∃ k out, k ≤ rest.length ∧ (∀ x ∈ rest.take k, 0x80 ≤ x) ∧
      utf8DecodeReplF (fuel + 1) (b :: rest) = out ++ utf8DecodeReplF fuel (rest.drop k) := by
  by_cases h1 : b < 0x80
  · refine ⟨0, [Char.ofNat b], Nat.zero_le _, by simp, ?_⟩
    simp only [utf8DecodeReplF, if_pos h1, List.drop_zero, List.singleton_append]
  · by_cases h2 : 0xC2 ≤ b ∧ b ≤ 0xDF
    · cases rest with
      | nil =>
        refine ⟨0, [replChar], Nat.le_refl _, by simp, ?_⟩
        simp only [utf8DecodeReplF, if_neg h1, if_pos h2, utf8DecodeReplF_nil, List.drop_zero]
        simp [utf8DecodeReplF_nil]
      | cons b1 rest1 =>
        by_cases hc : utf8Cont b1 = true
        · refine ⟨1, [Char.ofNat ((b - 0xC0) * 0x40 + (b1 - 0x80))], by simp, ?_, ?_⟩
          · intro x hx
            have hx2 : x = b1 := by simpa using hx
            rw [hx2]
            exact utf8Cont_ge hc
          · simp only [utf8DecodeReplF, if_neg h1, if_pos h2, if_pos hc, List.drop_succ_cons,
              List.drop_zero, List.singleton_append]
        · refine ⟨0, [replChar], Nat.zero_le _, by simp, ?_⟩
          simp only [utf8DecodeReplF, if_neg h1, if_pos h2, if_neg hc, List.drop_zero,
            List.singleton_append]
    · by_cases h3 : 0xE0 ≤ b ∧ b ≤ 0xEF
      · cases rest with
        | nil =>
          refine ⟨0, [replChar], Nat.le_refl _, by simp, ?_⟩
          simp only [utf8DecodeReplF, if_neg h1, if_neg h2, if_pos h3, List.drop_zero]
          simp [utf8DecodeReplF_nil]
        | cons b1 rest1 =>
          by_cases hs : utf8Second b b1 = true
          · cases rest1 with
            | nil =>
              refine ⟨1, [replChar], by simp, ?_, ?_⟩
              · intro x hx
                have hx2 : x = b1 := by simpa using hx
                rw [hx2]
                exact utf8Second_ge hs
              · simp only [utf8DecodeReplF, if_neg h1, if_neg h2, if_pos h3, if_pos hs,
                  List.drop_succ_cons, List.drop_zero]
                simp [utf8DecodeReplF_nil]
            | cons b2 rest2 =>
              by_cases hc2 : utf8Cont b2 = true
              · refine ⟨2, [Char.ofNat ((b - 0xE0) * 0x1000 + (b1 - 0x80) * 0x40 + (b2 - 0x80))],
                  by simp, ?_, ?_⟩
                · intro x hx
                  have hx2 : x = b1 ∨ x = b2 := by simpa using hx
                  cases hx2 with
                  | inl h => rw [h]; exact utf8Second_ge hs
                  | inr h => rw [h]; exact utf8Cont_ge hc2
                · simp only [utf8DecodeReplF, if_neg h1, if_neg h2, if_pos h3, if_pos hs,
                    if_pos hc2, List.drop_succ_cons, List.drop_zero, List.singleton_append]
              · refine ⟨1, [replChar], by simp, ?_, ?_⟩
                · intro x hx
                  have hx2 : x = b1 := by simpa using hx
                  rw [hx2]
                  exact utf8Second_ge hs
                · simp only [utf8DecodeReplF, if_neg h1, if_neg h2, if_pos h3, if_pos hs,
                    if_neg hc2, List.drop_succ_cons, List.drop_zero, List.singleton_append]
          · refine ⟨0, [replChar], Nat.zero_le _, by simp, ?_⟩
            simp only [utf8DecodeReplF, if_neg h1, if_neg h2, if_pos h3, if_neg hs,
              List.drop_zero, List.singleton_append]
      · by_cases h4 : 0xF0 ≤ b ∧ b ≤ 0xF4
        · cases rest with
          | nil =>
            refine ⟨0, [replChar], Nat.le_refl _, by simp, ?_⟩
            simp only [utf8DecodeReplF, if_neg h1, if_neg h2, if_neg h3, if_pos h4,
              List.drop_zero]
            simp [utf8DecodeReplF_nil]
          | cons b1 rest1 =>
            by_cases hs : utf8Second b b1 = true
            · cases rest1 with
              | nil =>
                refine ⟨1, [replChar], by simp, ?_, ?_⟩
                · intro x hx
                  have hx2 : x = b1 := by simpa using hx
                  rw [hx2]
                  exact utf8Second_ge hs
                · simp only [utf8DecodeReplF, if_neg h1, if_neg h2, if_neg h3, if_pos h4,
                    if_pos hs, List.drop_succ_cons, List.drop_zero]
                  simp [utf8DecodeReplF_nil]
              | cons b2 rest2 =>
                by_cases hc2 : utf8Cont b2 = true
                · cases rest2 with
                  | nil =>
                    refine ⟨2, [replChar], by simp, ?_, ?_⟩
                    · intro x hx
                      have hx2 : x = b1 ∨ x = b2 := by simpa using hx
                      cases hx2 with
                      | inl h => rw [h]; exact utf8Second_ge hs
                      | inr h => rw [h]; exact utf8Cont_ge hc2
                    · simp only [utf8DecodeReplF, if_neg h1, if_neg h2, if_neg h3, if_pos h4,
                        if_pos hs, if_pos hc2, List.drop_succ_cons, List.drop_zero]
                      simp [utf8DecodeReplF_nil]
                  | cons b3 rest3 =>
                    by_cases hc3 : utf8Cont b3 = true
                    · refine ⟨3, [Char.ofNat ((b - 0xF0) * 0x40000 + (b1 - 0x80) * 0x1000 +
                        (b2 - 0x80) * 0x40 + (b3 - 0x80))], by simp, ?_, ?_⟩
                      · intro x hx
                        have hx2 : x = b1 ∨ x = b2 ∨ x = b3 := by simpa using hx
                        rcases hx2 with h | h | h
                        · rw [h]; exact utf8Second_ge hs
                        · rw [h]; exact utf8Cont_ge hc2
                        · rw [h]; exact utf8Cont_ge hc3
                      · simp only [utf8DecodeReplF, if_neg h1, if_neg h2, if_neg h3, if_pos h4,
                          if_pos hs, if_pos hc2, if_pos hc3, List.drop_succ_cons, List.drop_zero,
                          List.singleton_append]
                    · refine ⟨2, [replChar], by simp, ?_, ?_⟩
                      · intro x hx
                        have hx2 : x = b1 ∨ x = b2 := by simpa using hx
                        cases hx2 with
                        | inl h => rw [h]; exact utf8Second_ge hs
                        | inr h => rw [h]; exact utf8Cont_ge hc2
                      · simp only [utf8DecodeReplF, if_neg h1, if_neg h2, if_neg h3, if_pos h4,
                          if_pos hs, if_pos hc2, if_neg hc3, List.drop_succ_cons, List.drop_zero,
                          List.singleton_append]
                · refine ⟨1, [replChar], by simp, ?_, ?_⟩
                  · intro x hx
                    have hx2 : x = b1 := by simpa using hx
                    rw [hx2]
                    exact utf8Second_ge hs
                  · simp only [utf8DecodeReplF, if_neg h1, if_neg h2, if_neg h3, if_pos h4,
                      if_pos hs, if_neg hc2, List.drop_succ_cons, List.drop_zero,
                      List.singleton_append]
            · refine ⟨0, [replChar], Nat.zero_le _, by simp, ?_⟩
              simp only [utf8DecodeReplF, if_neg h1, if_neg h2, if_neg h3, if_pos h4, if_neg hs,
                List.drop_zero, List.singleton_append]
        · refine ⟨0, [replChar], Nat.zero_le _, by simp, ?_⟩
          simp only [utf8DecodeReplF, if_neg h1, if_neg h2, if_neg h3, if_neg h4, List.drop_zero,
            List.singleton_append]

/-- One step of percent-decoding: starting at any character it consumes that
character plus k further characters that are all hex digits (the two digits
of a successful escape), emits some bytes, and proceeds; hence a character
that is not a hex digit, such as '.', is never consumed by a step that
started before it. -/
theorem pctBytesF_step (fuel : Nat) (c : Char) (rest : List Char) :
    ∃ k out, k ≤ rest.length ∧ (∀ x ∈ rest.take k, (hexDigitVal x).isSome = true) ∧
      pctBytesF (fuel + 1) (c :: rest) = out ++ pctBytesF fuel (rest.drop k) := by
  by_cases hc : c = '%'
  · subst hc
    cases rest with
    | nil =>
      refine ⟨0, [0x25], Nat.le_refl _, by simp, ?_⟩
      simp only [pctBytesF, if_pos rfl, if_true, List.drop_zero]
      simp [pctBytesF_nil]
    | cons a rest2 =>
      cases rest2 with
      | nil =>
        refine ⟨0, [0x25], Nat.zero_le _, by simp, ?_⟩
        simp only [pctBytesF, if_pos rfl, if_true, List.drop_zero, List.singleton_append]
      | cons b2 rest3 =>
        cases ha : hexDigitVal a with
        | some xa =>
          cases hb2 : hexDigitVal b2 with
          | some xb =>
            refine ⟨2, [16 * xa + xb], by simp, ?_, ?_⟩
            · intro x hx
              have hx2 : x = a ∨ x = b2 := by simpa using hx
              cases hx2 with
              | inl h => rw [h, ha]; rfl
              | inr h => rw [h, hb2]; rfl
            · simp only [pctBytesF, if_pos rfl, if_true, ha, hb2, List.drop_succ_cons,
                List.drop_zero, List.singleton_append]
          | none =>
            refine ⟨0, [0x25], Nat.zero_le _, by simp, ?_⟩
            simp only [pctBytesF, if_pos rfl, if_true, ha, hb2, List.drop_zero,
              List.singleton_append]
        | none =>
          refine ⟨0, [0x25], Nat.zero_le _, by simp, ?_⟩
          simp only [pctBytesF, if_pos rfl, if_true, ha, List.drop_zero, List.singleton_append]
  · refine ⟨0, [c.toNat], Nat.zero_le _, by simp, ?_⟩
    simp only [pctBytesF, if_neg hc, List.drop_zero, List.singleton_append]

/-- Percent-decoding preserves a literal ".." wherever it occurs: '.' is
neither '%' nor a hex digit, so both dots reach the byte string as adjacent
0x2E bytes. -/
theorem pctBytesF_dotdot : ∀ (fuel : Nat) (u v : List Char),
    (u ++ '.' :: '.' :: v).length ≤ fuel →
    ∃ bu bv, pctBytesF fuel (u ++ '.' :: '.' :: v) = bu ++ 0x2E :: 0x2E :: bv := by
  intro fuel
  induction fuel with
  | zero =>
    intro u v hl
    have h2 : u.length + (v.length + 2) ≤ 0 := by simpa using hl
    omega
  | succ f ih =>
    intro u v hl
    cases u with
    | nil =>
      cases f with
      | zero =>
        have h2 : v.length + 2 ≤ 1 := by simpa using hl
        omega
      | succ f2 =>
        exact ⟨[], pctBytesF f2 v, rfl⟩
    | cons c u2 =>
      obtain ⟨k, out, hk, hhex, heq⟩ := pctBytesF_step f c (u2 ++ '.' :: '.' :: v)
      have hkle : k ≤ u2.length := by
        by_contra hgt
        push_neg at hgt
        have hmem : '.' ∈ (u2 ++ '.' :: '.' :: v).take k := mem_take_append u2 '.' ('.' :: v) k hgt
        have h5 := hhex '.' hmem
        simp [hexDigitVal] at h5
      have hdrop : (u2 ++ '.' :: '.' :: v).drop k = u2.drop k ++ '.' :: '.' :: v :=
        dropOverAppend u2 ('.' :: '.' :: v) k hkle
      have hlen2 : (u2.drop k ++ '.' :: '.' :: v).length ≤ f := by
        rw [← hdrop, List.length_drop]
        simp only [List.length_append, List.length_cons] at hl ⊢
        omega
      obtain ⟨bu, bv, hrec⟩ := ih (u2.drop k) v hlen2
      refine ⟨out ++ bu, bv, ?_⟩
      rw [List.cons_append, heq, hdrop, hrec, List.append_assoc]

/-- UTF-8 decoding with replacement preserves adjacent 0x2E bytes as "..":
each decoding step never consumes a byte < 0x80 that it did not start at. -/
theorem utf8DecodeReplF_dotdot : ∀ (fuel : Nat) (u v : List Nat),
    (u ++ 0x2E :: 0x2E :: v).length ≤ fuel →
    ['.', '.'] <:+: utf8DecodeReplF fuel (u ++ 0x2E :: 0x2E :: v) := by
  intro fuel
  induction fuel with
  | zero =>
    intro u v hl
    have h2 : u.length + (v.length + 2) ≤ 0 := by simpa using hl
    omega
  | succ f ih =>
    intro u v hl
    cases u with
    | nil =>
      cases f with
      | zero =>
        have h2 : v.length + 2 ≤ 1 := by simpa using hl
        omega
      | succ f2 =>
        exact ⟨[], utf8DecodeReplF f2 v, rfl⟩
    | cons b u2 =>
      obtain ⟨k, out, hk, hge, heq⟩ := utf8DecodeReplF_step f b (u2 ++ 0x2E :: 0x2E :: v)
      have hkle : k ≤ u2.length := by
        by_contra hgt
        push_neg at hgt
        have hmem : (0x2E : Nat) ∈ (u2 ++ 0x2E :: 0x2E :: v).take k :=
          mem_take_append u2 0x2E (0x2E :: v) k hgt
        have h5 := hge 0x2E hmem
        omega
      have hdrop : (u2 ++ 0x2E :: 0x2E :: v).drop k = u2.drop k ++ 0x2E :: 0x2E :: v :=
        dropOverAppend u2 (0x2E :: 0x2E :: v) k hkle
      have hlen2 : (u2.drop k ++ 0x2E :: 0x2E :: v).length ≤ f := by
        rw [← hdrop, List.length_drop]
        simp only [List.length_append, List.length_cons] at hl ⊢
        omega
      have hrec := ih (u2.drop k) v hlen2
      rw [List.cons_append, heq, hdrop]
      exact hrec.trans (List.suffix_append out _).isInfix

theorem takeWhile_append_all {p : Char → Bool} : ∀ (u w : List Char), (∀ x ∈ u, p x = true) →
    (u ++ w).takeWhile p = u ++ w.takeWhile p
  | [], w, _ => rfl
  | a :: u2, w, h => by
    have ha : p a = true := h a (List.mem_cons_self a u2)
    rw [List.cons_append, List.takeWhile_cons_of_pos ha,
      takeWhile_append_all u2 w (fun x hx => h x (List.mem_cons_of_mem a hx)), List.cons_append]

theorem dropWhile_append_not_all {p : Char → Bool} : ∀ (u w : List Char),
    (∃ x ∈ u, p x = false) → ∃ u4, (u ++ w).dropWhile p = u4 ++ w
  | [], _, h => by
    obtain ⟨x, hx, _⟩ := h
    cases hx
  | a :: u2, w, h => by
    by_cases ha : p a = true
    · rw [List.cons_append, List.dropWhile_cons_of_pos ha]
      obtain ⟨x, hx, hpx⟩ := h
      have hx2 : x ∈ u2 := by
        cases hx with
        | head => rw [ha] at hpx; cases hpx
        | tail _ h2 => exact h2
      exact dropWhile_append_not_all u2 w ⟨x, hx2, hpx⟩
    · refine ⟨a :: u2, ?_⟩
      rw [List.cons_append, List.dropWhile_cons_of_neg ha]

/-- unquote preserves a literal ".." wherever it occurs in the request path:
both dots are ASCII, so they sit inside one ASCII run, where percent-decoding
and UTF-8 decoding each preserve them. -/
theorem unquoteF_dotdot : ∀ (fuel : Nat) (u v : List Char),
    (u ++ '.' :: '.' :: v).length ≤ fuel →
    ['.', '.'] <:+: unquoteF fuel (u ++ '.' :: '.' :: v) := by
  intro fuel
  induction fuel with
  | zero =>
    intro u v hl
    have h2 : u.length + (v.length + 2) ≤ 0 := by simpa using hl
    omega
  | succ f ih =>
    intro u v hl
    cases u with
    | nil =>
      rw [List.nil_append]
      have hA : isAsciiChar '.' = true := by decide
      simp only [unquoteF, if_pos hA]
      have htw : ('.' :: '.' :: v).takeWhile isAsciiChar =
          '.' :: '.' :: v.takeWhile isAsciiChar := by
        rw [List.takeWhile_cons_of_pos hA, List.takeWhile_cons_of_pos hA]
      rw [htw]
      obtain ⟨bu, bv, hP⟩ := pctBytesF_dotdot (('.' :: '.' :: v.takeWhile isAsciiChar).length)
        [] (v.takeWhile isAsciiChar) (by rw [List.nil_append])
      have hP2 : pctBytes ('.' :: '.' :: v.takeWhile isAsciiChar) = bu ++ 0x2E :: 0x2E :: bv := by
        unfold pctBytes
        rw [← hP, List.nil_append]
      rw [hP2]
      have hQ := utf8DecodeReplF_dotdot ((bu ++ 0x2E :: 0x2E :: bv).length) bu bv (Nat.le_refl _)
      have hQ2 : ['.', '.'] <:+: utf8DecodeRepl (bu ++ 0x2E :: 0x2E :: bv) := hQ
      exact hQ2.trans (List.prefix_append _ _).isInfix
    | cons c u2 =>
      rw [List.cons_append]
      have hlen1 : (u2 ++ '.' :: '.' :: v).length ≤ f := by
        simp only [List.length_cons, List.length_append] at hl ⊢
        omega
      by_cases hA : isAsciiChar c = true
      · simp only [unquoteF, if_pos hA]
        by_cases hall : ∀ x ∈ u2, isAsciiChar x = true
        · -- the ".." lies inside the leading ASCII run
          have hcall : ∀ x ∈ c :: u2, isAsciiChar x = true := by
            intro x hx
            cases hx with
            | head => exact hA
            | tail _ h2 => exact hall x h2
          have htw : ((c :: u2) ++ '.' :: '.' :: v).takeWhile isAsciiChar =
              (c :: u2) ++ '.' :: '.' :: v.takeWhile isAsciiChar := by
            rw [takeWhile_append_all (c :: u2) ('.' :: '.' :: v) hcall,
              List.takeWhile_cons_of_pos (by decide), List.takeWhile_cons_of_pos (by decide)]
          rw [← List.cons_append, htw]
          obtain ⟨bu, bv, hP⟩ := pctBytesF_dotdot
            (((c :: u2) ++ '.' :: '.' :: v.takeWhile isAsciiChar).length)
            (c :: u2) (v.takeWhile isAsciiChar) (Nat.le_refl _)
          have hP2 : pctBytes ((c :: u2) ++ '.' :: '.' :: v.takeWhile isAsciiChar) =
              bu ++ 0x2E :: 0x2E :: bv := hP
          rw [hP2]
          have hQ := utf8DecodeReplF_dotdot ((bu ++ 0x2E :: 0x2E :: bv).length) bu bv
            (Nat.le_refl _)
          have hQ2 : ['.', '.'] <:+: utf8DecodeRepl (bu ++ 0x2E :: 0x2E :: bv) := hQ
          exact hQ2.trans (List.prefix_append _ _).isInfix
        · -- a non-ASCII character precedes the "..": it lies in the dropWhile part
          push_neg at hall
          obtain ⟨x, hx, hpx⟩ := hall
          have hpx2 : isAsciiChar x = false := by
            cases hb : isAsciiChar x with
            | false => rfl
            | true => exact absurd hb hpx
          obtain ⟨u4, hdw⟩ :=
            dropWhile_append_not_all u2 ('.' :: '.' :: v) ⟨x, hx, hpx2⟩
          have hdw2 : (c :: (u2 ++ '.' :: '.' :: v)).dropWhile isAsciiChar =
              u4 ++ '.' :: '.' :: v := by
            rw [List.dropWhile_cons_of_pos hA, hdw]
          rw [hdw2]
          have hlen2 : (u4 ++ '.' :: '.' :: v).length ≤ f := by
            rw [← hdw]
            have h6 := dropWhile_length_le isAsciiChar (u2 ++ '.' :: '.' :: v)
            omega
          have hrec := ih u4 v hlen2
          exact hrec.trans (List.suffix_append _ _).isInfix
      · simp only [unquoteF, if_neg hA]
        have hrec := ih u2 v hlen1
        exact List.infix_cons hrec

/-- Claim C1: in single-root mode, translate_path(p) is join(root_dir, s)
where s is the percent-decoding of p with all leading '/' then stripped;
decoding happens before stripping and before filesystem composition, so
slashes introduced by decoding (such as '%2F') are also stripped, and in
particular translate_path("/sub/file.txt") = join(root, "sub/file.txt"). -/
theorem translate_path_decode_then_strip :
    (∀ root p, translate_path root p = posixJoin root (lstripSlashes (unquote p))) ∧
    (∀ root, translate_path root ("/sub/file.txt".data) = posixJoin root ("sub/file.txt".data)) ∧
    (∀ root, translate_path root ("%2F%2Fsub".data) = posixJoin root ("sub".data)) := by
  refine ⟨fun root p => rfl, fun root => ?_, fun root => ?_⟩
  · show posixJoin root (lstripSlashes (unquote ("/sub/file.txt".data))) = _
    have h : lstripSlashes (unquote ("/sub/file.txt".data)) = "sub/file.txt".data := by decide
    rw [h]
  · show posixJoin root (lstripSlashes (unquote ("%2F%2Fsub".data))) = _
    have h : lstripSlashes (unquote ("%2F%2Fsub".data)) = "sub".data := by decide
    rw [h]

/-- Claim C2: the resolver performs no normalization of '..' segments: for
every request path containing '..', the '..' appears verbatim in the
returned filesystem path (in particular translate_path("/../x") =
join(root, "../x")), so the resolver itself provides no containment under
the configured root. -/
theorem translate_path_dotdot_verbatim :
    (∀ root, translate_path root ("/../x".data) = posixJoin root ("../x".data)) ∧
    (∀ root p, ['.', '.'] <:+: p → ['.', '.'] <:+: translate_path root p) := by
  constructor
  · intro root
    show posixJoin root (lstripSlashes (unquote ("/../x".data))) = _
    have h : lstripSlashes (unquote ("/../x".data)) = "../x".data := by decide
    rw [h]
  · intro root p hdd
    obtain ⟨s, t, hst⟩ := hdd
    have hp2 : p = s ++ '.' :: '.' :: t := by
      rw [← hst]
      simp
    have h1 : ['.', '.'] <:+: unquote p := by
      rw [hp2]
      exact unquoteF_dotdot (s ++ '.' :: '.' :: t).length s t (Nat.le_refl _)
    have h2 := dotdot_lstrip (unquote p) h1
    have h3 := posixJoin_suffix root (lstripSlashes (unquote p))
    show ['.', '.'] <:+: posixJoin root (lstripSlashes (unquote p))
    exact h2.trans h3.isInfix

/-- Witness for C2 at root = "/r" and p = "/a%20/../b", a percent-containing
request path with a literal "..". -/
theorem translate_path_dotdot_verbatim_witness :
    ['.', '.'] <:+: translate_path ("/r".data) ("/a%20/../b".data) :=
  translate_path_dotdot_verbatim.2 ("/r".data) ("/a%20/../b".data) (by decide)

/-- Claim C3: translate_path returns the joined path unconditionally (a
single return, no fallback branch), and since the component joined onto root
never begins with '/', the configured root directory is a string prefix of
every returned path. -/
theorem translate_path_unconditional_root_anchored :
    ∀ root p, translate_path root p = posixJoin root (lstripSlashes (unquote p)) ∧
      startsWithChar '/' (lstripSlashes (unquote p)) = false ∧
      root <+: translate_path root p := by
  intro root p
  exact ⟨rfl, lstripSlashes_no_slash_head _,
    posixJoin_keeps_root root _ (lstripSlashes_no_slash_head _)⟩

/-- Claim C4: translate_path is total and never raises: its embedding needs
no error case for any request path. Malformed percent-escapes are decoded
best-effort exactly as CPython's unquote does: an escape that is not two hex
digits passes through literally ('%zz', '%2', '%'), and a hex escape that is
not valid UTF-8 becomes U+FFFD ('%ff'); resolution still produces a joined
path ('/x%zz'). -/
theorem translate_path_total_best_effort :
    (∀ root p, translate_path root p = posixJoin root (lstripSlashes (unquote p))) ∧
    unquote ("%zz".data) = "%zz".data ∧
    unquote ("%2".data) = "%2".data ∧
    unquote ("%".data) = "%".data ∧
    unquote ("%ff".data) = [replChar] ∧
    (∀ root, translate_path root ("/x%zz".data) = posixJoin root ("x%zz".data)) := by
  refine ⟨fun root p => rfl, by decide, by decide, by decide, by decide, fun root => ?_⟩
  show posixJoin root (lstripSlashes (unquote ("/x%zz".data))) = _
  have h : lstripSlashes (unquote ("/x%zz".data)) = "x%zz".data := by decide
  rw [h]

theorem getD_eq_of_lt {l : List String} {i : Nat} (h : i < l.length) : l.getD i "" = l[i] := by
  simp [List.getD_eq_getElem?_getD, List.getElem?_eq_getElem h]

theorem getD_eq_empty {l : List String} {i : Nat} (h : l.length ≤ i) : l.getD i "" = "" := by
  simp [List.getD_eq_getElem?_getD, List.getElem?_eq_none h]

theorem pyIndex_eq_ok {args : List String} {i : Nat} (h : i < args.length) :
    pyIndex args i = .ok (args.getD i "") := by
  unfold pyIndex
  rw [dif_pos h, getD_eq_of_lt h]

theorem flagStep_no_next {args : List String} {i : Nat} (cfg : ServerConfig)
    (h : args.length ≤ i + 1) : flagStep args i cfg = .ok cfg := by
  have hn : ¬ i + 1 < args.length := Nat.not_lt.mpr h
  unfold flagStep
  rw [if_neg (fun hc => hn hc.2), if_neg (fun hc => hn hc.2), if_neg (fun hc => hn hc.2),
    if_neg (fun hc => hn hc.2)]

theorem flagStep_error {args : List String} {i : Nat} {cfg : ServerConfig} {e : PyExit}
    (h : flagStep args i cfg = .error e) : ∃ v, e = .valueError v := by
  unfold flagStep at h
  by_cases h1 : args.getD i "" = "--host" ∧ i + 1 < args.length
  · rw [if_pos h1, pyIndex_eq_ok h1.2] at h
    exact Except.noConfusion h
  · rw [if_neg h1] at h
    by_cases h2 : args.getD i "" = "--port" ∧ i + 1 < args.length
    · rw [if_pos h2, pyIndex_eq_ok h2.2] at h
      simp only [Except.bind] at h
      cases hp : pyInt (args.getD (i + 1) "") with
      | some n =>
        rw [hp] at h
        exact Except.noConfusion h
      | none =>
        rw [hp] at h
        injection h with h3
        exact ⟨args.getD (i + 1) "", h3.symm⟩
    · rw [if_neg h2] at h
      by_cases h3 : args.getD i "" = "--cert" ∧ i + 1 < args.length
      · rw [if_pos h3, pyIndex_eq_ok h3.2] at h
        exact Except.noConfusion h
      · rw [if_neg h3] at h
        by_cases h4 : args.getD i "" = "--key" ∧ i + 1 < args.length
        · rw [if_pos h4, pyIndex_eq_ok h4.2] at h
          exact Except.noConfusion h
        · rw [if_neg h4] at h
          exact Except.noConfusion h

theorem flagStep_preserve {args : List String} {i : Nat} (cfg : ServerConfig)
    (hh : ¬ args.getD i "" = "--host") (hp : ¬ args.getD i "" = "--port") :
    ∃ cfg2, flagStep args i cfg = .ok cfg2 ∧ cfg2.base_url = cfg.base_url ∧
      cfg2.port = cfg.port := by
  unfold flagStep
  rw [if_neg (fun hc => hh hc.1), if_neg (fun hc => hp hc.1)]
  by_cases h3 : args.getD i "" = "--cert" ∧ i + 1 < args.length
  · rw [if_pos h3, pyIndex_eq_ok h3.2]
    exact ⟨_, rfl, rfl, rfl⟩
  · rw [if_neg h3]
    by_cases h4 : args.getD i "" = "--key" ∧ i + 1 < args.length
    · rw [if_pos h4, pyIndex_eq_ok h4.2]
      exact ⟨_, rfl, rfl, rfl⟩
    · rw [if_neg h4]
      exact ⟨cfg, rfl, rfl, rfl⟩

theorem flagStep_base_url_eq {args : List String} {i : Nat} {cfg cfg2 : ServerConfig}
    (hh : ¬ args.getD i "" = "--host") (hok : flagStep args i cfg = .ok cfg2) :
    cfg2.base_url = cfg.base_url := by
  unfold flagStep at hok
  rw [if_neg (fun hc => hh hc.1)] at hok
  by_cases h2 : args.getD i "" = "--port" ∧ i + 1 < args.length
  · rw [if_pos h2, pyIndex_eq_ok h2.2] at hok
    simp only [Except.bind] at hok
    cases hp : pyInt (args.getD (i + 1) "") with
    | some n =>
      rw [hp] at hok
      injection hok with h3
      rw [← h3]
    | none =>
      rw [hp] at hok
      exact Except.noConfusion hok
  · rw [if_neg h2] at hok
    by_cases h3 : args.getD i "" = "--cert" ∧ i + 1 < args.length
    · rw [if_pos h3, pyIndex_eq_ok h3.2] at hok
      simp only [Except.map] at hok
      injection hok with h4
      rw [← h4]
    · rw [if_neg h3] at hok
      by_cases h4 : args.getD i "" = "--key" ∧ i + 1 < args.length
      · rw [if_pos h4, pyIndex_eq_ok h4.2] at hok
        simp only [Except.map] at hok
        injection hok with h5
        rw [← h5]
      · rw [if_neg h4] at hok
        injection hok with h5
        rw [← h5]

theorem flagStep_port_eq {args : List String} {i : Nat} {cfg cfg2 : ServerConfig}
    (hp : ¬ args.getD i "" = "--port") (hok : flagStep args i cfg = .ok cfg2) :
    cfg2.port = cfg.port := by
  unfold flagStep at hok
  by_cases h1 : args.getD i "" = "--host" ∧ i + 1 < args.length
  · rw [if_pos h1, pyIndex_eq_ok h1.2] at hok
    simp only [Except.map] at hok
    injection hok with h3
    rw [← h3]
  · rw [if_neg h1, if_neg (fun hc => hp hc.1)] at hok
    by_cases h3 : args.getD i "" = "--cert" ∧ i + 1 < args.length
    · rw [if_pos h3, pyIndex_eq_ok h3.2] at hok
      simp only [Except.map] at hok
      injection hok with h4
      rw [← h4]
    · rw [if_neg h3] at hok
      by_cases h4 : args.getD i "" = "--key" ∧ i + 1 < args.length
      · rw [if_pos h4, pyIndex_eq_ok h4.2] at hok
        simp only [Except.map] at hok
        injection hok with h5
        rw [← h5]
      · rw [if_neg h4] at hok
        injection hok with h5
        rw [← h5]

theorem parseFlagsF_base_url_eq : ∀ (fuel : Nat) (args : List String) (j : Nat)
    (cfg cfg2 : ServerConfig), (∀ k, j ≤ k → ¬ args.getD k "" = "--host") →
    parseFlagsF fuel args j cfg = .ok cfg2 → cfg2.base_url = cfg.base_url := by
  intro fuel
  induction fuel with
  | zero =>
    intro args j cfg cfg2 _ h
    injection h with h2
    rw [← h2]
  | succ f ih =>
    intro args j cfg cfg2 hk h
    simp only [parseFlagsF] at h
    by_cases hj : j < args.length
    · rw [if_pos hj] at h
      cases hfs : flagStep args j cfg with
      | ok cfgm =>
        rw [hfs] at h
        have h1 := flagStep_base_url_eq (hk j (Nat.le_refl j)) hfs
        have h2 := ih args (j + 1) cfgm cfg2 (fun k hk2 => hk k (by omega)) h
        rw [h2, h1]
      | error e =>
        rw [hfs] at h
        exact Except.noConfusion h
    · rw [if_neg hj] at h
      injection h with h2
      rw [← h2]

theorem parseFlagsF_port_eq : ∀ (fuel : Nat) (args : List String) (j : Nat)
    (cfg cfg2 : ServerConfig), (∀ k, j ≤ k → ¬ args.getD k "" = "--port") →
    parseFlagsF fuel args j cfg = .ok cfg2 → cfg2.port = cfg.port := by
  intro fuel
  induction fuel with
  | zero =>
    intro args j cfg cfg2 _ h
    injection h with h2
    rw [← h2]
  | succ f ih =>
    intro args j cfg cfg2 hk h
    simp only [parseFlagsF] at h
    by_cases hj : j < args.length
    · rw [if_pos hj] at h
      cases hfs : flagStep args j cfg with
      | ok cfgm =>
        rw [hfs] at h
        have h1 := flagStep_port_eq (hk j (Nat.le_refl j)) hfs
        have h2 := ih args (j + 1) cfgm cfg2 (fun k hk2 => hk k (by omega)) h
        rw [h2, h1]
      | error e =>
        rw [hfs] at h
        exact Except.noConfusion h
    · rw [if_neg hj] at h
      injection h with h2
      rw [← h2]

theorem parseFlagsF_ge {args : List String} {i : Nat} (cfg : ServerConfig)
    (h : args.length ≤ i) : ∀ fuel, parseFlagsF fuel args i cfg = .ok cfg := by
  intro fuel
  cases fuel with
  | zero => rfl
  | succ f =>
    simp only [parseFlagsF]
    rw [if_neg (Nat.not_lt.mpr h)]

theorem parseFlagsF_error : ∀ (fuel : Nat) (args : List String) (i : Nat) (cfg : ServerConfig)
    (e : PyExit), parseFlagsF fuel args i cfg = .error e → ∃ v, e = .valueError v := by
  intro fuel
  induction fuel with
  | zero =>
    intro args i cfg e h
    exact Except.noConfusion h
  | succ f ih =>
    intro args i cfg e h
    simp only [parseFlagsF] at h
    by_cases hi : i < args.length
    · rw [if_pos hi] at h
      cases hfs : flagStep args i cfg with
      | ok cfg2 =>
        rw [hfs] at h
        exact ih args (i + 1) cfg2 e h
      | error e2 =>
        rw [hfs] at h
        obtain ⟨v, hv⟩ := flagStep_error hfs
        injection h with h2
        exact ⟨v, by rw [← h2]; exact hv⟩
    · rw [if_neg hi] at h
      exact Except.noConfusion h

theorem parseFlagsF_bad_port {i : Nat} : ∀ (fuel : Nat) (args : List String) (j : Nat)
    (cfg : ServerConfig), j ≤ i → i + 1 < args.length → args.length ≤ j + fuel →
    args.getD i "" = "--port" → pyInt (args.getD (i + 1) "") = none →
    ∃ v, parseFlagsF fuel args j cfg = .error (.valueError v) := by
  intro fuel
  induction fuel with
  | zero =>
    intro args j cfg hji hi hfuel _ _
    exact absurd hfuel (by omega)
  | succ f ih =>
    intro args j cfg hji hi hfuel hflag hbad
    have hj : j < args.length := by omega
    simp only [parseFlagsF]
    rw [if_pos hj]
    by_cases hije : j = i
    · subst hije
      have hstep : flagStep args j cfg = .error (.valueError (args.getD (j + 1) "")) := by
        unfold flagStep
        rw [if_neg (by intro hc; rw [hflag] at hc; exact absurd hc.1 (by decide))]
        rw [if_pos ⟨hflag, hi⟩, pyIndex_eq_ok hi]
        simp only [Except.bind]
        rw [hbad]
      rw [hstep]
      exact ⟨args.getD (j + 1) "", rfl⟩
    · have hji2 : j + 1 ≤ i := by omega
      cases hfs : flagStep args j cfg with
      | ok cfg2 =>
        obtain ⟨v, hv⟩ := ih args (j + 1) cfg2 hji2 hi (by omega) hflag hbad
        exact ⟨v, hv⟩
      | error e =>
        obtain ⟨v, hv⟩ := flagStep_error hfs
        refine ⟨v, ?_⟩
        show Except.error e = Except.error (PyExit.valueError v)
        rw [hv]

theorem parseFlagsF_preserve : ∀ (fuel : Nat) (args : List String) (j : Nat) (cfg : ServerConfig),
    (∀ k, j ≤ k → ¬ args.getD k "" = "--host" ∧ ¬ args.getD k "" = "--port") →
    ∃ cfg2, parseFlagsF fuel args j cfg = .ok cfg2 ∧ cfg2.base_url = cfg.base_url ∧
      cfg2.port = cfg.port := by
  intro fuel
  induction fuel with
  | zero =>
    intro args j cfg _
    exact ⟨cfg, rfl, rfl, rfl⟩
  | succ f ih =>
    intro args j cfg hk
    by_cases hj : j < args.length
    · obtain ⟨hh, hp⟩ := hk j (Nat.le_refl j)
      obtain ⟨cfg2, hstep, hb2, hp2⟩ := flagStep_preserve cfg hh hp
      obtain ⟨cfg3, hrec, hb3, hp3⟩ := ih args (j + 1) cfg2 (fun k hk2 => hk k (by omega))
      refine ⟨cfg3, ?_, by rw [hb3, hb2], by rw [hp3, hp2]⟩
      simp only [parseFlagsF]
      rw [if_pos hj, hstep]
      exact hrec
    · refine ⟨cfg, ?_, rfl, rfl⟩
      simp only [parseFlagsF]
      rw [if_neg hj]

theorem flagStep_error_port {args : List String} {i : Nat} {cfg : ServerConfig} {e : PyExit}
    (h : flagStep args i cfg = .error e) :
    args.getD i "" = "--port" ∧ i + 1 < args.length ∧
      pyInt (args.getD (i + 1) "") = none ∧ e = .valueError (args.getD (i + 1) "") := by
  unfold flagStep at h
  by_cases h1 : args.getD i "" = "--host" ∧ i + 1 < args.length
  · rw [if_pos h1, pyIndex_eq_ok h1.2] at h
    exact Except.noConfusion h
  · rw [if_neg h1] at h
    by_cases h2 : args.getD i "" = "--port" ∧ i + 1 < args.length
    · rw [if_pos h2, pyIndex_eq_ok h2.2] at h
      simp only [Except.bind] at h
      cases hp : pyInt (args.getD (i + 1) "") with
      | some n =>
        rw [hp] at h
        exact Except.noConfusion h
      | none =>
        rw [hp] at h
        injection h with h3
        exact ⟨h2.1, h2.2, rfl, h3.symm⟩
    · rw [if_neg h2] at h
      by_cases h3 : args.getD i "" = "--cert" ∧ i + 1 < args.length
      · rw [if_pos h3, pyIndex_eq_ok h3.2] at h
        exact Except.noConfusion h
      · rw [if_neg h3] at h
        by_cases h4 : args.getD i "" = "--key" ∧ i + 1 < args.length
        · rw [if_pos h4, pyIndex_eq_ok h4.2] at h
          exact Except.noConfusion h
        · rw [if_neg h4] at h
          exact Except.noConfusion h

theorem parseFlagsF_error_port : ∀ (fuel : Nat) (args : List String) (j : Nat)
    (cfg : ServerConfig) (e : PyExit), parseFlagsF fuel args j cfg = .error e →
    ∃ i, j ≤ i ∧ i + 1 < args.length ∧ args.getD i "" = "--port" ∧
      pyInt (args.getD (i + 1) "") = none ∧ e = .valueError (args.getD (i + 1) "") := by
  intro fuel
  induction fuel with
  | zero =>
    intro args j cfg e h
    exact Except.noConfusion h
  | succ f ih =>
    intro args j cfg e h
    simp only [parseFlagsF] at h
    by_cases hj : j < args.length
    · rw [if_pos hj] at h
      cases hfs : flagStep args j cfg with
      | ok cfg2 =>
        rw [hfs] at h
        obtain ⟨i, hji, hlt, hflag, hbad, he⟩ := ih args (j + 1) cfg2 e h
        exact ⟨i, by omega, hlt, hflag, hbad, he⟩
      | error e2 =>
        rw [hfs] at h
        obtain ⟨hflag, hlt, hbad, he⟩ := flagStep_error_port hfs
        injection h with h2
        exact ⟨j, Nat.le_refl j, hlt, hflag, hbad, by rw [← h2]; exact he⟩
    · rw [if_neg hj] at h
      exact Except.noConfusion h

theorem pyTruthyStr_iff (o : Option String) :
    pyTruthyStr o = true ↔ ∃ s, o = some s ∧ s ≠ "" := by
  cases o with
  | none => simp [pyTruthyStr]
  | some s => simp [pyTruthyStr]

/-- Claim C5: if the value supplied after --port is not a valid integer,
startup is fatal: int() raises ValueError (uncaught, so the process
terminates with a non-zero exit status and a traceback message) and
parseMain never produces a configuration, so no server is started. -/
theorem bad_port_value_fatal (args : List String) (i : Nat) (h1 : 1 ≤ i)
    (h2 : i + 1 < args.length) (h3 : args.getD i "" = "--port")
    (h4 : pyInt (args.getD (i + 1) "") = none) :
    ∃ v, parseMain args = .error (.valueError v) := by
  cases args with
  | nil => simp at h2
  | cons a0 rest =>
    have hlen : (a0 :: rest).length ≤ 1 + (rest.length + 1) := by
      simp only [List.length_cons]
      omega
    exact parseFlagsF_bad_port (rest.length + 1) (a0 :: rest) 1 { root_dir := a0 } h1 h2 hlen h3 h4

/-- Witness for C5 at args = ["dir", "--port", "x"]. -/
theorem bad_port_value_fatal_witness :
    ∃ v, parseMain ["dir", "--port", "x"] = .error (.valueError v) :=
  bad_port_value_fatal ["dir", "--port", "x"] 1 (by decide) (by decide) (by decide) (by decide)

/-- Claim C6 counterexample: with --cert supplied as the empty string and
--key supplied normally, both flags are supplied (both fields are set, not
None), yet the TLS condition `if cert_file and key_file:` is false because
Python's truthiness treats '' as falsy, so the server serves plain HTTP. -/
theorem tls_iff_flags_counterexample :
    parseMain ["d", "--cert", "", "--key", "k.pem"] =
      .ok { root_dir := "d", cert_file := some "", key_file := some "k.pem" } ∧
    ({ root_dir := "d", cert_file := some "", key_file := some "k.pem" } :
      ServerConfig).cert_file.isSome = true ∧
    ({ root_dir := "d", cert_file := some "", key_file := some "k.pem" } :
      ServerConfig).key_file.isSome = true ∧
    servesTLS { root_dir := "d", cert_file := some "", key_file := some "k.pem" } = false :=
  ⟨rfl, rfl, rfl, rfl⟩

/-- Claim C6 amended: the server terminates TLS if and only if both --cert
and --key are supplied with non-empty values: the socket is wrapped exactly
when cert_file and key_file are both set to non-empty strings, and
otherwise the server serves plain HTTP. -/
theorem tls_iff_nonempty_cert_key (args : List String) (cfg : ServerConfig)
    (_h : parseMain args = .ok cfg) :
    servesTLS cfg = true ↔
      ((∃ c, cfg.cert_file = some c ∧ c ≠ "") ∧ (∃ k, cfg.key_file = some k ∧ k ≠ "")) := by
  unfold servesTLS
  rw [Bool.and_eq_true, pyTruthyStr_iff, pyTruthyStr_iff]

/-- Witness for the amended C6 at args = ["d", "--cert", "c.pem", "--key", "k.pem"]. -/
theorem tls_iff_nonempty_cert_key_witness :
    servesTLS { root_dir := "d", cert_file := some "c.pem", key_file := some "k.pem" } = true ↔
      ((∃ c, (some "c.pem" : Option String) = some c ∧ c ≠ "") ∧
        (∃ k, (some "k.pem" : Option String) = some k ∧ k ≠ "")) :=
  tls_iff_nonempty_cert_key ["d", "--cert", "c.pem", "--key", "k.pem"]
    { root_dir := "d", cert_file := some "c.pem", key_file := some "k.pem" } rfl

/-- Claim C7: in single-root mode one positional directory argument is
required (with none, parsing stops with an error), and each default is tied
to its own flag's absence: whenever the --host flag is absent from the flag
arguments the server binds host '127.0.0.1', and whenever the --port flag is
absent it binds port 5050, in each case regardless of the other flags. -/
theorem single_root_defaults :
    (∃ e, parseMain [] = .error e) ∧
    (∀ d rest cfg, "--host" ∉ rest → parseMain (d :: rest) = .ok cfg →
      cfg.base_url = "127.0.0.1") ∧
    (∀ d rest cfg, "--port" ∉ rest → parseMain (d :: rest) = .ok cfg →
      cfg.port = 5050) := by
  refine ⟨⟨.sysExit 1 usageMessage, rfl⟩, ?_, ?_⟩
  · intro d rest cfg hh hok
    have hk : ∀ k, 1 ≤ k → ¬ (d :: rest).getD k "" = "--host" := by
      intro k hk1
      cases k with
      | zero => omega
      | succ m =>
        rw [List.getD_cons_succ]
        by_cases hm : m < rest.length
        · rw [getD_eq_of_lt hm]
          exact fun he => hh (he ▸ List.getElem_mem hm)
        · rw [getD_eq_empty (Nat.not_lt.mp hm)]
          decide
    have h2 := parseFlagsF_base_url_eq (rest.length + 1) (d :: rest) 1 { root_dir := d } cfg
      hk hok
    rw [h2]
  · intro d rest cfg hp hok
    have hk : ∀ k, 1 ≤ k → ¬ (d :: rest).getD k "" = "--port" := by
      intro k hk1
      cases k with
      | zero => omega
      | succ m =>
        rw [List.getD_cons_succ]
        by_cases hm : m < rest.length
        · rw [getD_eq_of_lt hm]
          exact fun he => hp (he ▸ List.getElem_mem hm)
        · rw [getD_eq_empty (Nat.not_lt.mp hm)]
          decide
    have h2 := parseFlagsF_port_eq (rest.length + 1) (d :: rest) 1 { root_dir := d } cfg hk hok
    rw [h2]

/-- Witness for C7: with ["dir", "--port", "8080"] (no --host) the host stays
'127.0.0.1', and with ["dir", "--host", "0.0.0.0"] (no --port) the port
stays 5050. -/
theorem single_root_defaults_witness :
    ({ root_dir := "dir", port := 8080 } : ServerConfig).base_url = "127.0.0.1" ∧
    ({ root_dir := "dir", base_url := "0.0.0.0" } : ServerConfig).port = 5050 :=
  ⟨single_root_defaults.2.1 "dir" ["--port", "8080"]
      { root_dir := "dir", port := 8080 } (by decide) rfl,
    single_root_defaults.2.2 "dir" ["--host", "0.0.0.0"]
      { root_dir := "dir", base_url := "0.0.0.0" } (by decide) rfl⟩

/-- Claim C8: invoked with no positional directory argument, the program
prints the usage message and exits with code 1 without building a server. -/
theorem missing_directory_usage_exit :
    parseMain [] = .error (.sysExit 1 usageMessage) := rfl

/-- Claim C9 counterexample: at the concrete input the claim describes, an
argument list ending in a flag token, parsing completes normally (no
IndexError): the bounds check `i + 1 < len(args)` in every branch prevents
any access past the end of argv. -/
theorem trailing_flag_no_oob_example :
    parseMain ["d", "--host"] = .ok { root_dir := "d" } ∧
    isIndexError (parseMain ["d", "--host"]) = false :=
  ⟨rfl, rfl⟩

/-- Claim C9 amended: flag parsing checks `i + 1 < len(args)` in every
branch before reading a flag value, so no argument list makes the value
lookup access an index past the end of argv: parseMain never raises
IndexError (the equality test against that outcome is false for every
argument list). -/
theorem flag_parsing_bounds_checked :
    ∀ args, isIndexError (parseMain args) = false := by
  intro args
  cases hpm : parseMain args with
  | ok cfg => rfl
  | error e =>
    cases e with
    | sysExit c m => rfl
    | valueError v => rfl
    | indexError =>
      cases args with
      | nil =>
        have h3 : PyExit.sysExit 1 usageMessage = PyExit.indexError := Except.error.inj hpm
        exact PyExit.noConfusion h3
      | cons a0 rest =>
        obtain ⟨v, hv⟩ :=
          parseFlagsF_error (rest.length + 1) (a0 :: rest) 1 { root_dir := a0 } .indexError hpm
        exact PyExit.noConfusion hv

/-- Claim C10 counterexample: ["dir", "--port", "--port"] ends in a flag
token, yet parsing does not complete without error: the earlier --port at
index 1 reads the final token as its value and int("--port") raises
ValueError. -/
theorem trailing_flag_error_counterexample :
    parseMain ["dir", "--port", "--port"] = .error (.valueError "--port") := rfl

/-- Claim C10 amended: the trailing flag itself is silently ignored: when
the scan reaches the final element and it is a flag token, that iteration
leaves every setting at its previous value and raises nothing; and for every
argument list with the required directory argument, parsing either completes
without error or fails with the ValueError of a --port flag at a non-final
position whose value is not a valid integer — so it completes without error
unless an earlier flag's value is invalid. In particular ["dir", "--port"]
parses with the port still at its default 5050. -/
theorem trailing_flag_ignored :
    (∀ (fuel : Nat) (args : List String) (i : Nat) (cfg : ServerConfig),
      i + 1 = args.length →
      (args.getD i "" = "--host" ∨ args.getD i "" = "--port" ∨
        args.getD i "" = "--cert" ∨ args.getD i "" = "--key") →
      parseFlagsF fuel args i cfg = .ok cfg) ∧
    (∀ d rest, (∃ cfg, parseMain (d :: rest) = .ok cfg) ∨
      (∃ i, 1 ≤ i ∧ i + 1 < (d :: rest).length ∧ (d :: rest).getD i "" = "--port" ∧
        pyInt ((d :: rest).getD (i + 1) "") = none ∧
        parseMain (d :: rest) = .error (.valueError ((d :: rest).getD (i + 1) "")))) ∧
    parseMain ["dir", "--port"] = .ok { root_dir := "dir" } := by
  refine ⟨?_, ?_, rfl⟩
  · intro fuel args i cfg hlast _hflag
    cases fuel with
    | zero => rfl
    | succ f =>
      simp only [parseFlagsF]
      rw [if_pos (by omega), flagStep_no_next cfg (by omega)]
      exact parseFlagsF_ge cfg (by omega) f
  · intro d rest
    cases hpm : parseMain (d :: rest) with
    | ok cfg => exact Or.inl ⟨cfg, rfl⟩
    | error e =>
      have h2 : parseFlagsF (rest.length + 1) (d :: rest) 1 { root_dir := d } = .error e := hpm
      obtain ⟨i, h1i, hlt, hflag, hbad, he⟩ :=
        parseFlagsF_error_port (rest.length + 1) (d :: rest) 1 { root_dir := d } e h2
      refine Or.inr ⟨i, h1i, hlt, hflag, hbad, ?_⟩
      rw [he]

/-- Witness for the amended C10: a trailing '--host' at the last index
leaves the configuration unchanged. -/
theorem trailing_flag_ignored_witness :
    parseFlagsF 2 ["d", "--host"] 1 { root_dir := "d" } = .ok { root_dir := "d" } :=
  trailing_flag_ignored.1 2 ["d", "--host"] 1 { root_dir := "d" } rfl (Or.inl rfl)

